import Mathlib

/-!
# Verification of the `cacheLRU` crate (`src/cache/cache_impl.rs`)

Shallow embedding of the LRU cache of `Cache<K, V>`: a hash index
(`HashMap<K, (V, Node<K>)>`, modelled as an association list), a recency
ordering kept as key-addressed `prev`/`next` neighbour pointers, and an
optional line-oriented text persistence layer.

Rust strings are modelled as `List Char`; `K::from_str` / `Display` are
modelled by explicit decode/encode parameters.  Fallible file writes are
modelled by an explicit outcome parameter whose value `put` discards,
exactly as the source binds the `io::Result` to `_`.
-/

namespace CacheLRU

/-- Model of `Node<K>` from `node.rs`: the neighbour pointers of one entry
in the recency ordering.  `prev` points one step towards the
most-recently-used head, `next` one step towards the least-recently-used
tail. -/
structure Node (K : Type) where
  prev : Option K
  next : Option K
deriving DecidableEq, Repr

/-- Model of `Cache<K, V>`: capacity, the hash index `map` (association list model of
`HashMap<K, (V, Node<K>)>`), the `head` (most-recently-used) and `tail`
(least-recently-used) keys, and the optional persistence filename. -/
structure Cache (K V : Type) where
  capacity : Nat
  map : List (K × V × Node K)
  head : Option K
  tail : Option K
  filename : Option (List Char)
deriving DecidableEq, Repr

variable {K V : Type} [DecidableEq K]

/-- Model of `HashMap::get`: first entry with the given key. -/
def mapGet : List (K × V × Node K) → K → Option (V × Node K)
  | [], _ => none
  | e :: rest, k => if e.1 = k then some e.2 else mapGet rest k

/-- Model of `HashMap::contains_key`. -/
def mapContains (m : List (K × V × Node K)) (k : K) : Bool :=
  (mapGet m k).isSome

/-- Model of `HashMap::remove`: drop the entry with the given key. -/
def mapRemove : List (K × V × Node K) → K → List (K × V × Node K)
  | [], _ => []
  | e :: rest, k => if e.1 = k then mapRemove rest k else e :: mapRemove rest k

/-- Model of `HashMap::get_mut` used to rewrite one entry's `Node` in place. -/
def modifyNode : List (K × V × Node K) → K → (Node K → Node K) → List (K × V × Node K)
  | [], _, _ => []
  | (k', v, n) :: rest, k, f =>
      if k' = k then (k', v, f n) :: rest else (k', v, n) :: modifyNode rest k f

/-- Model of `HashMap::insert`: replace the entry in place if the key is
present, otherwise append it. -/
def mapInsert : List (K × V × Node K) → K → V × Node K → List (K × V × Node K)
  | [], k, vn => [(k, vn.1, vn.2)]
  | (k', v', n') :: rest, k, vn =>
      if k' = k then (k, vn.1, vn.2) :: rest else (k', v', n') :: mapInsert rest k vn

namespace Cache

/-- Model of `Cache::new(capacity)` generalised over the stored filename;
`new` itself passes `none`. -/
def mk0 (cap : Nat) (fname : Option (List Char)) : Cache K V :=
  ⟨cap, [], none, none, fname⟩

/-- Model of `Cache::new(capacity)`: empty cache, no persistence. -/
def new (cap : Nat) : Cache K V := mk0 cap none

/-- Model of `Cache::remove_node` (lines 131-168): unlink `key` from the doubly linked
recency ordering, reconnecting its neighbours, or updating `head`/`tail` when
the node was at an end.  A no-op when `key` has no entry in the index. -/
def remove_node (c : Cache K V) (key : K) : Cache K V :=
  match mapGet c.map key with
  | none => c
  | some (_, node) =>
    match node.prev, node.next with
    | some prevKey, some nextKey =>
        let m1 := modifyNode c.map prevKey (fun n => { n with next := some nextKey })
        let m2 := modifyNode m1 nextKey (fun n => { n with prev := some prevKey })
        { c with map := m2 }
    | none, some nextKey =>
        { c with head := some nextKey,
                 map := modifyNode c.map nextKey (fun n => { n with prev := none }) }
    | some prevKey, none =>
        { c with tail := some prevKey,
                 map := modifyNode c.map prevKey (fun n => { n with next := none }) }
    | none, none =>
        { c with head := none, tail := none }

/-- Model of `Cache::remove_tail` (lines 171-176): unlink the tail node and remove its
index entry. -/
def remove_tail (c : Cache K V) : Cache K V :=
  match c.tail with
  | none => c
  | some tailKey =>
      let c1 := remove_node c tailKey
      { c1 with map := mapRemove c1.map tailKey }

/-- Model of `Cache::add_to_head` (lines 179-194): link `key` in front of the current
head (or make it both head and tail when the ordering was empty). -/
def add_to_head (c : Cache K V) (key : K) : Cache K V :=
  let c1 := match c.head with
    | some oldHead =>
        { c with map := modifyNode c.map oldHead (fun n => { n with prev := some key }) }
    | none => { c with tail := some key }
  let c2 := { c1 with map := modifyNode c1.map key (fun _ => ⟨none, c1.head⟩) }
  { c2 with head := some key }

/-- Model of `Cache::move_to_head` (lines 197-203): promote an existing key, a no-op
when it is already the head. -/
def move_to_head (c : Cache K V) (key : K) : Cache K V :=
  if c.head = some key then c else add_to_head (remove_node c key) key

/-- The in-memory mutation of `LRUCache::put` (lines 208-223): if the key is
present, remove its map entry and then call `remove_node`; else if the index
is at capacity, evict the tail; then insert a fresh node and link it at the
head.  The trailing best-effort save (lines 225-228) touches only the file,
never the returned state; it is modelled by `put_with_save` below. -/
def put (c : Cache K V) (key : K) (value : V) : Cache K V :=
  let c1 :=
    if mapContains c.map key then
      remove_node { c with map := mapRemove c.map key } key
    else if c.map.length = c.capacity then
      remove_tail c
    else c
  let c2 := { c1 with map := mapInsert c1.map key (value, ⟨none, none⟩) }
  add_to_head c2 key

/-- Model of `LRUCache::get` (lines 231-239): when the key is present, promote it and
return its value together with the mutated cache; otherwise return `none` and
leave the cache unchanged. -/
def get (c : Cache K V) (key : K) : Option V × Cache K V :=
  if mapContains c.map key then
    let c1 := move_to_head c key
    ((mapGet c1.map key).map (fun x => x.1), c1)
  else (none, c)

end Cache

/-- Rust `str::split('\t')`: the (possibly empty) fragments between tab
characters, in order.  Splitting the empty string yields one empty fragment,
as in Rust. -/
def split_tab : List Char → List (List Char)
  | [] => [[]]
  | ch :: rest =>
      if ch = '\t' then [] :: split_tab rest
      else
        match split_tab rest with
        | [] => [[ch]]
        | s :: ss => (ch :: s) :: ss

namespace Cache

/-- One iteration of the load loop of `Cache::new_persistent` (lines 97-105):
split the line on tabs; when there are exactly two fields and both parse,
`put` the pair; otherwise leave the cache unchanged.  `decK`/`decV` model
`K::from_str` / `V::from_str`. -/
def load_line (decK : List Char → Option K) (decV : List Char → Option V)
    (c : Cache K V) (line : List Char) : Cache K V :=
  match split_tab line with
  | [p0, p1] =>
      match decK p0, decV p1 with
      | some key, some value => put c key value
      | _, _ => c
  | _ => c

/-- Model of `Cache::new_persistent` (lines 85-109): start from an empty cache that
remembers the filename; when the file exists (`file = some lines`), replay
its lines through the load loop; a missing file is not an error. -/
def new_persistent (decK : List Char → Option K) (decV : List Char → Option V)
    (cap : Nat) (fname : List Char) (file : Option (List (List Char))) : Cache K V :=
  let c0 : Cache K V := mk0 cap (some fname)
  match file with
  | none => c0
  | some lines => lines.foldl (load_line decK decV) c0

/-- The lines `Cache::save_to_file` (lines 120-128) writes: one
`key<TAB>value` line per index entry, in iteration order.  `encK`/`encV`
model the `Display` renderings. -/
def save_lines (encK : K → List Char) (encV : V → List Char) (c : Cache K V) :
    List (List Char) :=
  c.map.map (fun e => encK e.1 ++ '\t' :: encV e.2.1)

/-- Model of `LRUCache::put` with its persistence side effect (lines 208-229): the
in-memory mutation, then, when a filename is configured, a synchronous save
whose `io::Result` the source binds to `_`.  `writeOk` models whether the
underlying file write succeeds; the second component is the file contents
actually written (`none` when not persistent or when the write failed). -/
def put_with_save (encK : K → List Char) (encV : V → List Char)
    (c : Cache K V) (key : K) (value : V) (writeOk : Bool) :
    Cache K V × Option (List (List Char)) :=
  let c1 := put c key value
  match c1.filename with
  | some _ => (c1, if writeOk then some (save_lines encK encV c1) else none)
  | none => (c1, none)

end Cache

/-- Modelled from the spec: "each well-formed line is `key<TAB>value`; lines
that do not split into exactly two tab-separated fields, or whose fields fail
to parse as `K`/`V` respectively, are silently skipped".  The well-formed
content of one line, used to compare `new_persistent` with the spec's
description of loading. -/
def parse_line (decK : List Char → Option K) (decV : List Char → Option V)
    (line : List Char) : Option (K × V) :=
  match split_tab line with
  | [p0, p1] =>
      match decK p0, decV p1 with
      | some key, some value => some (key, value)
      | _, _ => none
  | _ => none

/-- Replay a list of (key, value) pairs through `put`, in order. -/
def replay (c : Cache K V) (ps : List (K × V)) : Cache K V :=
  ps.foldl (fun c p => Cache.put c p.1 p.2) c

/-- Value stored under a key, ignoring the recency node: the observable
key-to-value mapping of the index. -/
def lookupV (m : List (K × V × Node K)) (k : K) : Option V :=
  (mapGet m k).map (fun x => x.1)

/-- The key of an entry. -/
def entryKey (e : K × V × Node K) : K := e.1

/-- The (key, value) projection of the index, in iteration order. -/
def pairs (m : List (K × V × Node K)) : List (K × V) :=
  m.map (fun e => (e.1, e.2.1))

/-- Number of distinct keys held by the cache. -/
def distinctKeys (c : Cache K V) : Nat :=
  (c.map.map entryKey).dedup.length

/-- First-match lookup in a plain (key, value) list; `lookupV` factors
through it via `pairs`. -/
def lookupKV : List (K × V) → K → Option V
  | [], _ => none
  | p :: rest, k => if p.1 = k then some p.2 else lookupKV rest k

/-- The in-memory portion of a cache state: everything except the
persistence filename. -/
def memState (c : Cache K V) : Nat × List (K × V × Node K) × Option K × Option K :=
  (c.capacity, c.map, c.head, c.tail)

/-! ## Concrete evaluation states over `Nat` keys and values

Keys are named `a = 0`, `b = 1`, `c = 2`, `d = 3` below. -/

/-- Capacity-2 cache after `put(a,1); put(b,2); put(a,3); put(c,4)`. -/
def updateThenEvict : Cache Nat Nat :=
  Cache.put (Cache.put (Cache.put (Cache.put (Cache.new 2) 0 1) 1 2) 0 3) 2 4

/-- Capacity-2 cache after `put(a,1); put(b,2); get(a); put(c,3)`. -/
def promoteThenEvict : Cache Nat Nat :=
  Cache.put (Cache.get (Cache.put (Cache.put (Cache.new 2) 0 1) 1 2) 0).2 2 3

/-- A concrete key rendering for witnesses: `0 ↦ "a"`, everything else `"b"`. -/
def encNatKey : Nat → List Char := fun n => if n = 0 then ['a'] else ['b']

/-- Concrete key parsing inverting `encNatKey` on `0` and `1`. -/
def decNatKey : List Char → Option Nat :=
  fun l => if l = ['a'] then some 0 else if l = ['b'] then some 1 else none

/-- A concrete value rendering for witnesses: `10 ↦ "x"`, everything else `"y"`. -/
def encNatVal : Nat → List Char := fun n => if n = 10 then ['x'] else ['y']

/-- Concrete value parsing inverting `encNatVal` on `10` and `20`. -/
def decNatVal : List Char → Option Nat :=
  fun l => if l = ['x'] then some 10 else if l = ['y'] then some 20 else none

/-! ## Lemmas about the association-list model of `HashMap` -/

theorem lookupV_eq_lookupKV (m : List (K × V × Node K)) (k : K) :
    lookupV m k = lookupKV (pairs m) k := by
  induction m with
  | nil => rfl
  | cons e rest ih =>
      obtain ⟨k', v, n⟩ := e
      by_cases h : k' = k <;> simp [lookupV, mapGet, pairs, lookupKV, h] at ih ⊢ <;>
        simpa [lookupV, pairs] using ih

theorem pairs_modifyNode (m : List (K × V × Node K)) (i : K) (f : Node K → Node K) :
    pairs (modifyNode m i f) = pairs m := by
  induction m with
  | nil => rfl
  | cons e rest ih =>
      obtain ⟨k', v, n⟩ := e
      by_cases h : k' = i <;> simp [modifyNode, pairs, h] at ih ⊢ <;>
        simpa [pairs] using ih

theorem lookupV_modifyNode (m : List (K × V × Node K)) (i : K) (f : Node K → Node K)
    (k : K) : lookupV (modifyNode m i f) k = lookupV m k := by
  rw [lookupV_eq_lookupKV, pairs_modifyNode, ← lookupV_eq_lookupKV]

theorem lookupV_mapRemove (m : List (K × V × Node K)) (k j : K) :
    lookupV (mapRemove m k) j = if j = k then none else lookupV m j := by
  induction m with
  | nil => simp [mapRemove, lookupV, mapGet]
  | cons e rest ih =>
      obtain ⟨k', v, n⟩ := e
      by_cases h1 : k' = k
      · subst h1
        by_cases h2 : j = k'
        · simp [mapRemove, lookupV, mapGet, h2] at ih ⊢; simpa using ih
        · simp [mapRemove, lookupV, mapGet, h2, Ne.symm h2] at ih ⊢; simpa using ih
      · by_cases h2 : k' = j
        · subst h2
          have hjk : ¬ k' = k := h1
          simp [mapRemove, lookupV, mapGet, h1, hjk]
        · simp [mapRemove, lookupV, mapGet, h1, h2] at ih ⊢; simpa using ih

theorem lookupV_mapInsert (m : List (K × V × Node K)) (k : K) (vn : V × Node K)
    (j : K) : lookupV (mapInsert m k vn) j = if j = k then some vn.1 else lookupV m j := by
  induction m with
  | nil =>
      by_cases h : j = k
      · subst h; simp [mapInsert, lookupV, mapGet]
      · have h' : ¬ k = j := fun hh => h hh.symm
        simp [mapInsert, lookupV, mapGet, h, h']
  | cons e rest ih =>
      obtain ⟨k', v, n⟩ := e
      by_cases h1 : k' = k
      · subst h1
        by_cases h2 : j = k'
        · subst h2; simp [mapInsert, lookupV, mapGet]
        · have h2' : ¬ k' = j := fun hh => h2 hh.symm
          simp [mapInsert, lookupV, mapGet, h2, h2']
      · by_cases h2 : k' = j
        · subst h2
          have h1' : ¬ k' = k := h1
          simp [mapInsert, lookupV, mapGet, h1', (fun hh : k' = k => h1' hh)]
        · simp only [mapInsert, if_neg h1]
          simp only [lookupV, mapGet, if_neg h2]
          simpa [lookupV] using ih

theorem mapInsert_of_get_none (m : List (K × V × Node K)) (k : K) (vn : V × Node K)
    (h : mapGet m k = none) : mapInsert m k vn = m ++ [(k, vn.1, vn.2)] := by
  induction m with
  | nil => rfl
  | cons e rest ih =>
      obtain ⟨k', v, n⟩ := e
      by_cases h1 : k' = k
      · simp [mapGet, h1] at h
      · simp [mapGet, h1] at h
        simp [mapInsert, h1, ih h]

theorem mapGet_eq_none_iff (m : List (K × V × Node K)) (k : K) :
    mapGet m k = none ↔ k ∉ m.map entryKey := by
  induction m with
  | nil => simp [mapGet]
  | cons e rest ih =>
      obtain ⟨k', v, n⟩ := e
      by_cases h : k' = k
      · subst h; simp [mapGet, entryKey]
      · have h' : ¬ k = k' := fun hh => h hh.symm
        simp [mapGet, h, h', entryKey, ih]

theorem pairs_append (m m' : List (K × V × Node K)) :
    pairs (m ++ m') = pairs m ++ pairs m' := by
  simp [pairs]

theorem length_pairs (m : List (K × V × Node K)) : (pairs m).length = m.length := by
  simp [pairs]

theorem map_fst_pairs (m : List (K × V × Node K)) :
    (pairs m).map Prod.fst = m.map entryKey := by
  simp [pairs, entryKey]

/-! ## Lemmas about `lookupKV` -/

theorem lookupKV_eq_none_iff (l : List (K × V)) (k : K) :
    lookupKV l k = none ↔ k ∉ l.map Prod.fst := by
  induction l with
  | nil => simp [lookupKV]
  | cons p rest ih =>
      by_cases h : p.1 = k
      · subst h; simp [lookupKV]
      · have h' : ¬ k = p.1 := fun hh => h hh.symm
        simp [lookupKV, h, h', ih]

theorem lookupKV_some_mem {l : List (K × V)} {k : K} {v : V}
    (h : lookupKV l k = some v) : (k, v) ∈ l := by
  induction l with
  | nil => simp [lookupKV] at h
  | cons p rest ih =>
      obtain ⟨pk, pv⟩ := p
      by_cases h1 : pk = k
      · subst h1
        simp [lookupKV] at h
        subst h
        exact List.mem_cons_self _ _
      · simp [lookupKV, h1] at h
        exact List.mem_cons_of_mem _ (ih h)

theorem lookupKV_of_mem_nodup {l : List (K × V)} {p : K × V}
    (hnd : (l.map Prod.fst).Nodup) (hp : p ∈ l) : lookupKV l p.1 = some p.2 := by
  induction l with
  | nil => simp at hp
  | cons q rest ih =>
      rw [List.map_cons, List.nodup_cons] at hnd
      rcases List.mem_cons.mp hp with h | h
      · subst h; simp [lookupKV]
      · have hne : q.1 ≠ p.1 := by
          intro hq
          exact hnd.1 (by rw [hq]; exact List.mem_map.mpr ⟨p, h, rfl⟩)
        simp [lookupKV, hne, ih hnd.2 h]

theorem lookupKV_perm {l1 l2 : List (K × V)} (h : l1.Perm l2)
    (hnd : (l1.map Prod.fst).Nodup) (k : K) : lookupKV l1 k = lookupKV l2 k := by
  cases hl : lookupKV l1 k with
  | none =>
      have h1 := (lookupKV_eq_none_iff l1 k).mp hl
      have h2 : k ∉ l2.map Prod.fst := fun hm => h1 (((h.map Prod.fst).mem_iff).mpr hm)
      exact ((lookupKV_eq_none_iff l2 k).mpr h2).symm
  | some v =>
      have hmem : (k, v) ∈ l2 := h.mem_iff.mp (lookupKV_some_mem hl)
      have hnd2 : (l2.map Prod.fst).Nodup := ((h.map Prod.fst).nodup_iff).mp hnd
      exact (lookupKV_of_mem_nodup hnd2 hmem).symm

/-! ## Lemmas about the cache operations

`remove_node`, `add_to_head` and `move_to_head` only rewrite recency nodes
and the `head`/`tail` registers; they never change which keys map to which
values.  `remove_tail` additionally deletes the index entry of the tail key.
-/

namespace Cache

theorem remove_node_eta (c : Cache K V) (j : K) :
    ∃ m h t, remove_node c j = ⟨c.capacity, m, h, t, c.filename⟩ ∧ pairs m = pairs c.map := by
  unfold remove_node
  rcases hm : mapGet c.map j with _ | ⟨v, p, n⟩
  · exact ⟨c.map, c.head, c.tail, rfl, rfl⟩
  · rcases p with _ | pk <;> rcases n with _ | nk <;>
      exact ⟨_, _, _, rfl, by simp [pairs_modifyNode]⟩

theorem pairs_remove_node (c : Cache K V) (j : K) :
    pairs (remove_node c j).map = pairs c.map := by
  obtain ⟨m, h, t, he, hp⟩ := remove_node_eta c j
  rw [he]; exact hp

theorem capacity_remove_node (c : Cache K V) (j : K) :
    (remove_node c j).capacity = c.capacity := by
  obtain ⟨m, h, t, he, _⟩ := remove_node_eta c j
  rw [he]

theorem filename_remove_node (c : Cache K V) (j : K) :
    (remove_node c j).filename = c.filename := by
  obtain ⟨m, h, t, he, _⟩ := remove_node_eta c j
  rw [he]

theorem lookupV_remove_node (c : Cache K V) (j k : K) :
    lookupV (remove_node c j).map k = lookupV c.map k := by
  rw [lookupV_eq_lookupKV, pairs_remove_node, ← lookupV_eq_lookupKV]

theorem lookupV_remove_tail (c : Cache K V) (j : K) :
    lookupV (remove_tail c).map j = if c.tail = some j then none else lookupV c.map j := by
  unfold remove_tail
  rcases ht : c.tail with _ | tk
  · simp
  · by_cases hj : tk = j
    · subst hj; simp [lookupV_mapRemove]
    · have hj' : ¬ j = tk := fun hh => hj hh.symm
      simp [lookupV_mapRemove, hj, hj', lookupV_remove_node]

theorem capacity_remove_tail (c : Cache K V) :
    (remove_tail c).capacity = c.capacity := by
  unfold remove_tail
  rcases c.tail with _ | tk
  · rfl
  · simp [capacity_remove_node]

theorem filename_remove_tail (c : Cache K V) :
    (remove_tail c).filename = c.filename := by
  unfold remove_tail
  rcases c.tail with _ | tk
  · rfl
  · simp [filename_remove_node]

theorem add_to_head_eta (c : Cache K V) (k : K) :
    ∃ m t, add_to_head c k = ⟨c.capacity, m, some k, t, c.filename⟩ ∧
      pairs m = pairs c.map ∧
      t = (match c.head with | some _ => c.tail | none => some k) := by
  unfold add_to_head
  rcases c.head with _ | oldHead <;>
    exact ⟨_, _, rfl, by simp [pairs_modifyNode], rfl⟩

theorem pairs_add_to_head (c : Cache K V) (k : K) :
    pairs (add_to_head c k).map = pairs c.map := by
  obtain ⟨m, t, he, hp, _⟩ := add_to_head_eta c k
  rw [he]; exact hp

theorem lookupV_add_to_head (c : Cache K V) (k j : K) :
    lookupV (add_to_head c k).map j = lookupV c.map j := by
  rw [lookupV_eq_lookupKV, pairs_add_to_head, ← lookupV_eq_lookupKV]

theorem head_add_to_head (c : Cache K V) (k : K) :
    (add_to_head c k).head = some k := by
  obtain ⟨m, t, he, _, _⟩ := add_to_head_eta c k
  rw [he]

theorem capacity_add_to_head (c : Cache K V) (k : K) :
    (add_to_head c k).capacity = c.capacity := by
  obtain ⟨m, t, he, _, _⟩ := add_to_head_eta c k
  rw [he]

theorem filename_add_to_head (c : Cache K V) (k : K) :
    (add_to_head c k).filename = c.filename := by
  obtain ⟨m, t, he, _, _⟩ := add_to_head_eta c k
  rw [he]

theorem tail_add_to_head (c : Cache K V) (k : K) :
    (add_to_head c k).tail = (match c.head with | some _ => c.tail | none => some k) := by
  obtain ⟨m, t, he, _, ht⟩ := add_to_head_eta c k
  rw [he]; exact ht

theorem lookupV_move_to_head (c : Cache K V) (k j : K) :
    lookupV (move_to_head c k).map j = lookupV c.map j := by
  unfold move_to_head
  by_cases h : c.head = some k
  · simp [h]
  · simp [h, lookupV_add_to_head, lookupV_remove_node]

/-- The value lookup returned by `get` is exactly the stored value; `get`
never changes any stored value, only recency metadata. -/
theorem get_fst (c : Cache K V) (k : K) : (get c k).1 = lookupV c.map k := by
  unfold get
  by_cases h : mapContains c.map k
  · simp only [h, if_true]
    show lookupV (move_to_head c k).map k = lookupV c.map k
    exact lookupV_move_to_head c k k
  · unfold mapContains at h
    rcases hm : mapGet c.map k with _ | v
    · simp [mapContains, hm, lookupV]
    · rw [hm] at h; simp at h

theorem lookupV_get (c : Cache K V) (k j : K) :
    lookupV (get c k).2.map j = lookupV c.map j := by
  unfold get
  by_cases h : mapContains c.map k
  · simp [h, lookupV_move_to_head]
  · simp [h]

/-- The operation `put` always leaves the just-put key mapped to the just-put value,
whatever branch was taken. -/
theorem lookupV_put_self (c : Cache K V) (k : K) (v : V) :
    lookupV (put c k v).map k = some v := by
  simp [put, lookupV_add_to_head, lookupV_mapInsert]

theorem lookupV_put_of_contains (c : Cache K V) (k : K) (v : V) (j : K)
    (h : mapContains c.map k = true) (hj : j ≠ k) :
    lookupV (put c k v).map j = lookupV c.map j := by
  simp [put, h, lookupV_add_to_head, lookupV_mapInsert, hj,
    lookupV_remove_node, lookupV_mapRemove]

theorem lookupV_put_fresh_notfull (c : Cache K V) (k : K) (v : V) (j : K)
    (h : mapContains c.map k = false) (hlen : c.map.length ≠ c.capacity) (hj : j ≠ k) :
    lookupV (put c k v).map j = lookupV c.map j := by
  simp [put, h, hlen, lookupV_add_to_head, lookupV_mapInsert, hj]

/-- The eviction path of `put`: a brand-new key arriving at a full index
evicts whatever key `tail` names, keeps every other binding, and binds the
new key. -/
theorem lookupV_put_fresh_full (c : Cache K V) (k : K) (v : V) (j : K)
    (h : mapContains c.map k = false) (hlen : c.map.length = c.capacity) (hj : j ≠ k) :
    lookupV (put c k v).map j = if c.tail = some j then none else lookupV c.map j := by
  simp [put, h, hlen, lookupV_add_to_head, lookupV_mapInsert, hj, lookupV_remove_tail]

/-- The insert path of `put` on a fresh key with the index not at capacity:
the pair is appended, the length grows by one, the key becomes head, and the
tail moves only when the cache was empty of a head. -/
theorem put_fresh_struct (c : Cache K V) (k : K) (v : V)
    (hk : mapGet c.map k = none) (hlen : c.map.length ≠ c.capacity) :
    pairs (put c k v).map = pairs c.map ++ [(k, v)] ∧
    (put c k v).capacity = c.capacity ∧
    (put c k v).filename = c.filename ∧
    (put c k v).map.length = c.map.length + 1 ∧
    (put c k v).head = some k ∧
    (put c k v).tail = (match c.head with | some _ => c.tail | none => some k) := by
  have hc : mapContains c.map k = false := by simp [mapContains, hk]
  have hred : put c k v
      = add_to_head { c with map := c.map ++ [(k, v, ⟨none, none⟩)] } k := by
    simp [put, hc, hlen, mapInsert_of_get_none _ _ _ hk]
  constructor
  · rw [hred, pairs_add_to_head]; simp [pairs_append, pairs]
  constructor
  · rw [hred, capacity_add_to_head]
  constructor
  · rw [hred, filename_add_to_head]
  constructor
  · have : (pairs (put c k v).map).length = (pairs c.map ++ [(k, v)]).length := by
      rw [hred, pairs_add_to_head]; simp [pairs_append, pairs]
    simpa [length_pairs] using this
  constructor
  · rw [hred, head_add_to_head]
  · rw [hred, tail_add_to_head]

theorem replay_append (c : Cache K V) (l1 l2 : List (K × V)) :
    replay c (l1 ++ l2) = replay (replay c l1) l2 := by
  simp [replay, List.foldl_append]

/-- Replaying a sequence of distinct fresh keys that fits within the
capacity builds exactly that association, with the first key at the tail
(least recently used) and the last at the head. -/
theorem replay_invariant (cap : Nat) (fno : Option (List Char)) (ps : List (K × V))
    (hnd : (ps.map Prod.fst).Nodup) (hlen : ps.length ≤ cap) :
    pairs (replay (mk0 cap fno) ps).map = ps ∧
    (replay (mk0 cap fno) ps).capacity = cap ∧
    (replay (mk0 cap fno) ps).filename = fno ∧
    (replay (mk0 cap fno) ps).map.length = ps.length ∧
    (replay (mk0 cap fno) ps).head = ps.getLast?.map Prod.fst ∧
    (replay (mk0 cap fno) ps).tail = ps.head?.map Prod.fst := by
  induction ps using List.reverseRecOn with
  | nil => simp [replay, mk0, pairs]
  | append_singleton l p ih =>
      have hndl : (l.map Prod.fst).Nodup := by
        rw [List.map_append] at hnd
        exact (List.nodup_append.mp hnd).1
      have hfresh : p.1 ∉ l.map Prod.fst := by
        rw [List.map_append] at hnd
        have hdisj := (List.nodup_append.mp hnd).2.2
        intro hmem
        exact hdisj hmem (by simp)
      have hlenl : l.length ≤ cap := by
        have := hlen; simp at this; omega
      obtain ⟨hpairs, hcap, hfn, hmlen, hhead, htail⟩ := ih hndl hlenl
      set c1 := replay (mk0 cap fno) l with hc1
      have hget : mapGet c1.map p.1 = none := by
        rw [mapGet_eq_none_iff, ← map_fst_pairs, hpairs]
        exact hfresh
      have hlt : c1.map.length ≠ c1.capacity := by
        rw [hmlen, hcap]
        have := hlen; simp at this; omega
      have hrep : replay (mk0 cap fno) (l ++ [p]) = put c1 p.1 p.2 := by
        rw [replay_append]; rfl
      obtain ⟨s1, s2, s3, s4, s5, s6⟩ := put_fresh_struct c1 p.1 p.2 hget hlt
      refine ⟨?_, ?_, ?_, ?_, ?_, ?_⟩
      · rw [hrep, s1, hpairs]
      · rw [hrep, s2, hcap]
      · rw [hrep, s3, hfn]
      · rw [hrep, s4, hmlen]; simp
      · rw [hrep, s5]; simp
      · rw [hrep, s6, hhead, htail]
        cases l with
        | nil => simp
        | cons q rest =>
            rcases hgl : (q :: rest).getLast? with _ | z
            · exact absurd hgl (by simp)
            · simp [hgl]

end Cache

/-! ## Lemmas about the persistence layer -/

theorem split_tab_no_tab (l : List Char) (h : '\t' ∉ l) : split_tab l = [l] := by
  induction l with
  | nil => rfl
  | cons ch rest ih =>
      have hch : ¬ ch = '\t' := fun hh => h (by simp [hh])
      have hrest : '\t' ∉ rest := fun hm => h (List.mem_cons_of_mem _ hm)
      simp [split_tab, hch, ih hrest]

theorem split_tab_append (a b : List Char) (ha : '\t' ∉ a) :
    split_tab (a ++ '\t' :: b) = a :: split_tab b := by
  induction a with
  | nil => simp [split_tab]
  | cons ch rest ih =>
      have hch : ¬ ch = '\t' := fun hh => ha (by simp [hh])
      have hrest : '\t' ∉ rest := fun hm => ha (List.mem_cons_of_mem _ hm)
      simp [split_tab, hch, ih hrest]

/-- A rendered `key<TAB>value` line parses back to its pair, provided the
renderings are tab-free and decode inverts encode on them. -/
theorem parse_line_render (decK : List Char → Option K) (decV : List Char → Option V)
    (encK : K → List Char) (encV : V → List Char) (k : K) (v : V)
    (hK : decK (encK k) = some k) (hKt : '\t' ∉ encK k)
    (hV : decV (encV v) = some v) (hVt : '\t' ∉ encV v) :
    parse_line decK decV (encK k ++ '\t' :: encV v) = some (k, v) := by
  unfold parse_line
  rw [split_tab_append _ _ hKt, split_tab_no_tab _ hVt]
  simp [hK, hV]

theorem load_line_eq_parse (decK : List Char → Option K) (decV : List Char → Option V)
    (c : Cache K V) (line : List Char) :
    Cache.load_line decK decV c line =
      match parse_line decK decV line with
      | some p => Cache.put c p.1 p.2
      | none => c := by
  unfold Cache.load_line parse_line
  cases h : split_tab line with
  | nil => rfl
  | cons p0 t =>
      cases t with
      | nil => rfl
      | cons p1 t2 =>
          cases t2 with
          | nil => cases hk : decK p0 <;> cases hv : decV p1 <;> simp [hk, hv]
          | cons q t3 => rfl

theorem foldl_load_line_eq_replay (decK : List Char → Option K)
    (decV : List Char → Option V) (lines : List (List Char)) (c : Cache K V) :
    lines.foldl (Cache.load_line decK decV) c
      = replay c (lines.filterMap (parse_line decK decV)) := by
  induction lines generalizing c with
  | nil => rfl
  | cons line rest ih =>
      rw [List.foldl_cons, load_line_eq_parse, List.filterMap_cons]
      cases parse_line decK decV line with
      | none => exact ih c
      | some p => rw [replay]; rw [List.foldl_cons]; exact ih _

/-! ## Independence of the in-memory mutation from the filename (C9) -/

namespace Cache

theorem remove_node_mkF (cap : Nat) (m : List (K × V × Node K)) (hd tl : Option K)
    (j : K) : ∃ m2 h2 t2, ∀ f,
      remove_node (⟨cap, m, hd, tl, f⟩ : Cache K V) j = ⟨cap, m2, h2, t2, f⟩ := by
  unfold remove_node
  dsimp only
  cases mapGet m j with
  | none => exact ⟨m, hd, tl, fun f => rfl⟩
  | some vn =>
      obtain ⟨v, p, n⟩ := vn
      cases p <;> cases n <;> exact ⟨_, _, _, fun f => rfl⟩

theorem remove_tail_mkF (cap : Nat) (m : List (K × V × Node K)) (hd tl : Option K) :
    ∃ m2 h2 t2, ∀ f,
      remove_tail (⟨cap, m, hd, tl, f⟩ : Cache K V) = ⟨cap, m2, h2, t2, f⟩ := by
  cases tl with
  | none => exact ⟨m, hd, none, fun f => rfl⟩
  | some tk =>
      obtain ⟨m2, h2, t2, hrn⟩ := remove_node_mkF (V := V) cap m hd (some tk) tk
      refine ⟨mapRemove m2 tk, h2, t2, fun f => ?_⟩
      unfold remove_tail
      dsimp only
      rw [hrn f]

theorem add_to_head_mkF (cap : Nat) (m : List (K × V × Node K)) (hd tl : Option K)
    (k : K) : ∃ m2 t2, ∀ f,
      add_to_head (⟨cap, m, hd, tl, f⟩ : Cache K V) k = ⟨cap, m2, some k, t2, f⟩ := by
  unfold add_to_head
  dsimp only
  cases hd with
  | none => exact ⟨modifyNode m k (fun _ => ⟨none, none⟩), some k, fun f => rfl⟩
  | some oldHead =>
      exact ⟨modifyNode (modifyNode m oldHead (fun n => { n with prev := some k })) k
        (fun _ => ⟨none, some oldHead⟩), tl, fun f => rfl⟩

theorem put_mkF (cap : Nat) (m : List (K × V × Node K)) (hd tl : Option K)
    (k : K) (v : V) : ∃ m2 h2 t2, ∀ f,
      put (⟨cap, m, hd, tl, f⟩ : Cache K V) k v = ⟨cap, m2, h2, t2, f⟩ := by
  by_cases hc : mapContains m k = true
  · obtain ⟨m2, h2, t2, hrn⟩ := remove_node_mkF (V := V) cap (mapRemove m k) hd tl k
    obtain ⟨m3, t3, hah⟩ :=
      add_to_head_mkF (V := V) cap (mapInsert m2 k (v, ⟨none, none⟩)) h2 t2 k
    refine ⟨m3, some k, t3, fun f => ?_⟩
    show put (⟨cap, m, hd, tl, f⟩ : Cache K V) k v = _
    unfold put
    simp only [hc, if_true]
    rw [hrn f]
    exact hah f
  · by_cases hlen : m.length = cap
    · obtain ⟨m2, h2, t2, hrt⟩ := remove_tail_mkF (V := V) cap m hd tl
      obtain ⟨m3, t3, hah⟩ :=
        add_to_head_mkF (V := V) cap (mapInsert m2 k (v, ⟨none, none⟩)) h2 t2 k
      refine ⟨m3, some k, t3, fun f => ?_⟩
      show put (⟨cap, m, hd, tl, f⟩ : Cache K V) k v = _
      unfold put
      simp only [hc, if_false, hlen, if_true]
      rw [hrt f]
      exact hah f
    · obtain ⟨m3, t3, hah⟩ :=
        add_to_head_mkF (V := V) cap (mapInsert m k (v, ⟨none, none⟩)) hd tl k
      refine ⟨m3, some k, t3, fun f => ?_⟩
      show put (⟨cap, m, hd, tl, f⟩ : Cache K V) k v = _
      unfold put
      simp only [hc, if_false, hlen]
      exact hah f

end Cache

theorem filterMap_eq_self_of_forall {α : Type} (f : α → Option α) (l : List α)
    (h : ∀ a ∈ l, f a = some a) : l.filterMap f = l := by
  induction l with
  | nil => rfl
  | cons a rest ih =>
      rw [List.filterMap_cons, h a (by simp)]
      rw [ih (fun b hb => h b (List.mem_cons_of_mem _ hb))]

/-! ## The claims -/

/-- C1: the spec claims that with capacity 2, after
`put(a,1); put(b,2); put(a,3); put(c,4)` key `b` is evicted and `get(a)`
returns `3`.  The code does the opposite at exactly this input: because
`put`'s update path removes the map entry before calling `remove_node`,
the unlink is a no-op, `a` is still named by `tail`, and the `put(c,4)`
eviction removes `a`.  Afterwards `get(a)` returns absent and `b` is still
present with value `2`. -/
theorem spec_c1_update_recency_evicts_wrong_key :
    (Cache.get updateThenEvict 0).1 = none ∧
    (Cache.get updateThenEvict 1).1 = some 2 ∧
    (Cache.get updateThenEvict 2).1 = some 4 := by
  refine ⟨?_, ?_, ?_⟩ <;> rfl

/-- C2: the spec claims the number of distinct keys never exceeds the
configured capacity, for every capacity including 0.  The code violates
this twice: a capacity-0 cache holds one key after a single `put`
(`remove_tail` runs before the insert and finds nothing to evict), and a
capacity-2 cache holds three keys after
`put(a,1); put(b,2); put(a,3); put(c,4); put(d,5)` (the dangling `tail`
left by the update bug makes the eviction a no-op). -/
theorem spec_c2_capacity_invariant_violated :
    distinctKeys (Cache.put (Cache.new 0 : Cache Nat Nat) 0 1) = 1 ∧
    (Cache.new 0 : Cache Nat Nat).capacity = 0 ∧
    distinctKeys (Cache.put updateThenEvict 3 5) = 3 ∧
    updateThenEvict.capacity = 2 := by
  refine ⟨?_, ?_, ?_, ?_⟩ <;> rfl

/-- C3: the spec claims a capacity-0 cache is permanently empty and
`get` always returns absent.  In the code a capacity-0 cache retains the
first `put` (`get` then returns its value) and grows without bound, because
eviction happens before insertion and is guarded by `len == capacity`. -/
theorem spec_c3_zero_capacity_retains_entries :
    (Cache.get (Cache.put (Cache.new 0 : Cache Nat Nat) 0 1) 0).1 = some 1 ∧
    distinctKeys (Cache.put (Cache.put (Cache.new 0 : Cache Nat Nat) 0 1) 1 2) = 2 := by
  exact ⟨rfl, rfl⟩

/-- C4: the spec claims the hash index and the recency ordering always
hold the same key set, and that `head`/`tail` always name present keys.
After `put(a,1); put(b,2); put(a,3); put(c,4)` at capacity 2, `tail` names
key `a`, which has no entry in the index. -/
theorem spec_c4_tail_dangles_after_update :
    updateThenEvict.tail = some 0 ∧ mapGet updateThenEvict.map 0 = none := by
  exact ⟨rfl, rfl⟩

/-- C5: inserting `capacity + 1` distinct keys in order into a fresh
cache of capacity ≥ 1, with no intervening `get`, evicts exactly the first
key (it is absent afterwards) and keeps every later key with its inserted
value. -/
theorem spec_c5_eviction_correctness (cap : Nat) (hcap : 1 ≤ cap)
    (p1 : K × V) (rest : List (K × V)) (hlen : rest.length = cap)
    (hnd : ((p1 :: rest).map Prod.fst).Nodup) :
    lookupV (replay (Cache.new cap) (p1 :: rest)).map p1.1 = none ∧
    ∀ p ∈ rest, lookupV (replay (Cache.new cap) (p1 :: rest)).map p.1 = some p.2 := by
  have hrest : rest ≠ [] := by
    intro h; rw [h] at hlen; simp at hlen; omega
  obtain ⟨mid, plast, hconcat⟩ := (List.eq_nil_or_concat rest).resolve_left hrest
  rw [List.concat_eq_append] at hconcat
  subst hconcat
  have hsplit : p1 :: (mid ++ [plast]) = (p1 :: mid) ++ [plast] := rfl
  have hndps : ((p1 :: mid).map Prod.fst).Nodup := by
    rw [hsplit, List.map_append] at hnd
    exact (List.nodup_append.mp hnd).1
  have hfresh : plast.1 ∉ (p1 :: mid).map Prod.fst := by
    rw [hsplit, List.map_append] at hnd
    have hdisj := (List.nodup_append.mp hnd).2.2
    intro hmem
    exact hdisj hmem (by simp)
  have hpslen : (p1 :: mid).length = cap := by
    simp at hlen ⊢; omega
  obtain ⟨hpairs, hcapE, _, hmlen, _, htail⟩ :=
    Cache.replay_invariant cap none (p1 :: mid) hndps (le_of_eq hpslen)
  set c1 := replay (Cache.mk0 cap none) (p1 :: mid) with hc1
  have hnew : Cache.new (K := K) (V := V) cap = Cache.mk0 cap none := rfl
  have hrepl : replay (Cache.new cap) (p1 :: (mid ++ [plast]))
      = Cache.put c1 plast.1 plast.2 := by
    rw [hnew, hsplit, Cache.replay_append]; rfl
  have hget : mapGet c1.map plast.1 = none := by
    rw [mapGet_eq_none_iff, ← map_fst_pairs, hpairs]
    exact hfresh
  have hcont : mapContains c1.map plast.1 = false := by
    simp [mapContains, hget]
  have hfull : c1.map.length = c1.capacity := by
    rw [hmlen, hcapE, hpslen]
  have hne1 : p1.1 ≠ plast.1 := by
    intro h
    exact hfresh (h ▸ (by simp : p1.1 ∈ (p1 :: mid).map Prod.fst))
  constructor
  · rw [hrepl,
      Cache.lookupV_put_fresh_full c1 plast.1 plast.2 p1.1 hcont hfull (Ne.symm hne1).symm]
    rw [htail]
    simp
  · intro p hp
    rw [hrepl]
    rcases List.mem_append.mp hp with hmid | hlast
    · have hpkey : p.1 ∈ (p1 :: mid).map Prod.fst := by
        exact List.mem_map.mpr ⟨p, List.mem_cons_of_mem _ hmid, rfl⟩
      have hnep : p.1 ≠ plast.1 := by
        intro h; exact hfresh (h ▸ hpkey)
      rw [Cache.lookupV_put_fresh_full c1 plast.1 plast.2 p.1 hcont hfull hnep, htail]
      have hne2 : p.1 ≠ p1.1 := by
        intro h
        rw [List.map_cons, List.nodup_cons] at hndps
        apply hndps.1
        have : p.1 ∈ mid.map Prod.fst := List.mem_map.mpr ⟨p, hmid, rfl⟩
        rw [← h]; exact this
      have hcond : ¬ (some p1.1 = some p.1) := by
        intro h; exact hne2 (Option.some.inj h).symm
      simp only [Option.map_some, List.head?_cons] at hcond ⊢
      rw [if_neg (by simpa using hcond)]
      rw [lookupV_eq_lookupKV, hpairs]
      exact lookupKV_of_mem_nodup hndps (List.mem_cons_of_mem _ hmid)
    · have hpl : p = plast := by simpa using hlast
      subst hpl
      rw [Cache.lookupV_put_self]

/-- Witness for C5 at capacity 1 with keys `0, 1`: after `put(0,1); put(1,2)`
key `0` is evicted and key `1` holds `2`. -/
theorem spec_c5_eviction_correctness_witness :
    ((1 : Nat) ≤ 1 ∧ [((1 : Nat), (2 : Nat))].length = 1 ∧
      (([((0 : Nat), (1 : Nat)), (1, 2)].map Prod.fst).Nodup)) ∧
    lookupV (replay (Cache.new 1) [((0 : Nat), (1 : Nat)), (1, 2)]).map 0 = none ∧
    lookupV (replay (Cache.new 1) [((0 : Nat), (1 : Nat)), (1, 2)]).map 1 = some 2 :=
  ⟨⟨by decide, by decide, by decide⟩,
    (spec_c5_eviction_correctness 1 (by decide) (0, 1) [(1, 2)] (by decide) (by decide)).1,
    (spec_c5_eviction_correctness 1 (by decide) (0, 1) [(1, 2)] (by decide) (by decide)).2
      (1, 2) (by decide)⟩

/-- C6: with capacity 2, `put(a,1); put(b,2); get(a); put(c,3)` evicts
`b` and not `a`: the successful `get(a)` promoted `a` to most-recently-used
before `c`'s insertion forced an eviction. -/
theorem spec_c6_promotion_on_read :
    (Cache.get promoteThenEvict 1).1 = none ∧
    (Cache.get promoteThenEvict 0).1 = some 1 ∧
    (Cache.get promoteThenEvict 2).1 = some 3 := by
  refine ⟨?_, ?_, ?_⟩ <;> rfl

/-- C7: round-trip persistence.  Building a persistent cache, inserting
`M ≤ N` distinct keys whose tab-free, newline-free renderings parse back to
themselves, then re-loading a persistent cache of the same capacity from the
saved file — its lines being the final entries in an arbitrary iteration
order `entries` — reproduces exactly the same key-to-value mapping. -/
theorem spec_c7_roundtrip_persistence
    (encK : K → List Char) (decK : List Char → Option K)
    (encV : V → List Char) (decV : List Char → Option V)
    (cap : Nat) (fname : List Char) (ps entries : List (K × V))
    (hlen : ps.length ≤ cap) (hnd : (ps.map Prod.fst).Nodup)
    (hK : ∀ p ∈ ps, decK (encK p.1) = some p.1 ∧ '\t' ∉ encK p.1 ∧ '\n' ∉ encK p.1)
    (hV : ∀ p ∈ ps, decV (encV p.2) = some p.2 ∧ '\t' ∉ encV p.2 ∧ '\n' ∉ encV p.2)
    (hperm : entries.Perm (pairs (replay (Cache.mk0 cap (some fname)) ps).map)) :
    ∀ k, lookupV (Cache.new_persistent decK decV cap fname
            (some (entries.map (fun p => encK p.1 ++ '\t' :: encV p.2)))).map k
          = lookupV (replay (Cache.mk0 cap (some fname)) ps).map k := by
  obtain ⟨hpairs, _, _, _, _, _⟩ :=
    Cache.replay_invariant cap (some fname) ps hnd hlen
  have hperm' : entries.Perm ps := by rw [hpairs] at hperm; exact hperm
  have hndE : (entries.map Prod.fst).Nodup := ((hperm'.map Prod.fst).nodup_iff).mpr hnd
  have hlenE : entries.length ≤ cap := by rw [hperm'.length_eq]; exact hlen
  have hparse : ∀ p ∈ entries,
      parse_line decK decV (encK p.1 ++ '\t' :: encV p.2) = some p := by
    intro p hp
    have hpPs : p ∈ ps := hperm'.mem_iff.mp hp
    obtain ⟨k1, k2, _⟩ := hK p hpPs
    obtain ⟨v1, v2, _⟩ := hV p hpPs
    have := parse_line_render decK decV encK encV p.1 p.2 k1 k2 v1 v2
    simpa using this
  have hloaded : Cache.new_persistent decK decV cap fname
      (some (entries.map (fun p => encK p.1 ++ '\t' :: encV p.2)))
      = replay (Cache.mk0 cap (some fname)) entries := by
    show (entries.map (fun p => encK p.1 ++ '\t' :: encV p.2)).foldl
        (Cache.load_line decK decV) (Cache.mk0 cap (some fname)) = _
    rw [foldl_load_line_eq_replay, List.filterMap_map]
    rw [filterMap_eq_self_of_forall
      (parse_line decK decV ∘ fun p => encK p.1 ++ '\t' :: encV p.2) entries hparse]
  obtain ⟨hpairsE, _, _, _, _, _⟩ :=
    Cache.replay_invariant cap (some fname) entries hndE hlenE
  intro k
  rw [hloaded, lookupV_eq_lookupKV, hpairsE, lookupV_eq_lookupKV, hpairs]
  exact lookupKV_perm hperm' hndE k

/-- Witness for C7 at capacity 2, keys `0, 1`, values `10, 20`, with the
file lines in the reverse of insertion order. -/
theorem spec_c7_roundtrip_persistence_witness :
    ([((0 : Nat), (10 : Nat)), (1, 20)].length ≤ 2 ∧
      (([((0 : Nat), (10 : Nat)), (1, 20)].map Prod.fst).Nodup)) ∧
    lookupV (Cache.new_persistent decNatKey decNatVal 2 ['f']
        (some ([((1 : Nat), (20 : Nat)), (0, 10)].map
          (fun p => encNatKey p.1 ++ '\t' :: encNatVal p.2)))).map 0
      = lookupV (replay (Cache.mk0 2 (some ['f'])) [((0 : Nat), (10 : Nat)), (1, 20)]).map 0 :=
  ⟨⟨by decide, by decide⟩,
    spec_c7_roundtrip_persistence encNatKey decNatKey encNatVal decNatVal 2 ['f']
      [(0, 10), (1, 20)] [(1, 20), (0, 10)] (by decide) (by decide)
      (by decide) (by decide) (List.Perm.swap (0, 10) (1, 20) []) 0⟩

/-- C8: loading a persistent cache from an existing file silently skips
every line that does not split into exactly two tab-separated fields or
whose fields fail to parse, and the result is exactly the replay, through
`put` into a fresh empty cache of the requested capacity, of the well-formed
lines in file order. -/
theorem spec_c8_malformed_lines_skipped (decK : List Char → Option K)
    (decV : List Char → Option V) (cap : Nat) (fname : List Char)
    (lines : List (List Char)) :
    Cache.new_persistent decK decV cap fname (some lines)
      = replay (Cache.mk0 cap (some fname)) (lines.filterMap (parse_line decK decV)) := by
  show lines.foldl (Cache.load_line decK decV) (Cache.mk0 cap (some fname)) = _
  exact foldl_load_line_eq_replay decK decV lines _

/-- C9: on a persistent cache, `put` never surfaces a save failure and
never rolls back the in-memory mutation: whatever the write outcome, the
cache returned by `put` is the same, and its in-memory state equals the
state `put` produces on the same cache with persistence disabled. -/
theorem spec_c9_put_swallows_save_failure (encK : K → List Char)
    (encV : V → List Char) (c : Cache K V) (k : K) (v : V) (fn : List Char)
    (hpers : c.filename = some fn) (writeOk : Bool) :
    (Cache.put_with_save encK encV c k v writeOk).1 = Cache.put c k v ∧
    memState (Cache.put c k v) = memState (Cache.put { c with filename := none } k v) := by
  constructor
  · unfold Cache.put_with_save
    cases h : (Cache.put c k v).filename <;> simp [h]
  · obtain ⟨cap, m, hd, tl, f⟩ := c
    obtain ⟨m2, h2, t2, hput⟩ := Cache.put_mkF cap m hd tl k v
    show memState (Cache.put ⟨cap, m, hd, tl, f⟩ k v)
        = memState (Cache.put ⟨cap, m, hd, tl, none⟩ k v)
    rw [hput f, hput none]
    rfl

/-- Witness for C9 on a persistent capacity-1 cache with file name `"p"`,
for a failing write. -/
theorem spec_c9_put_swallows_save_failure_witness :
    ((Cache.mk0 1 (some ['p']) : Cache Nat Nat).filename = some ['p']) ∧
    ((Cache.put_with_save (fun _ => []) (fun _ => [])
        (Cache.mk0 1 (some ['p']) : Cache Nat Nat) 0 1 false).1
      = Cache.put (Cache.mk0 1 (some ['p'])) 0 1 ∧
    memState (Cache.put (Cache.mk0 1 (some ['p']) : Cache Nat Nat) 0 1)
      = memState (Cache.put { (Cache.mk0 1 (some ['p']) : Cache Nat Nat) with
          filename := none } 0 1)) :=
  ⟨rfl, spec_c9_put_swallows_save_failure (fun _ => []) (fun _ => [])
    (Cache.mk0 1 (some ['p'])) 0 1 ['p'] rfl false⟩

/-- C10: immediately after `put(k, v)`, on any cache state whatsoever
(hence on every reachable one, at every capacity including 0), `get(k)`
returns `v`: `put` always leaves the just-put key present and retrievable. -/
theorem spec_c10_put_then_get (c : Cache K V) (k : K) (v : V) :
    (Cache.get (Cache.put c k v) k).1 = some v := by
  rw [Cache.get_fst, Cache.lookupV_put_self]

end CacheLRU
